import Mathlib

/-!
The `ki` pipe-style combinators over `std::vector`

A shallow embedding of `src/ki.cpp`.

* A `Range` (`std::vector<T>`) is a `List α`; an iterator into it is its offset from
  `begin()`, an `Int` (so that `begin() + n` with a negative `n` can be written down).
* `int` is `Int` kept inside `[-2^31, 2^31)`: the arithmetic of the program (`+`, `*`,
  `++`) is followed by `wrapInt`, the two's complement reduction modulo `2^32`. Signed
  overflow is undefined in the source; `checked_plus`, `checked_multiplies` and
  `checked_fold` follow the same loop and mark an overflowing step as
  `Fault.undefined_behaviour`.
* A stage returns `Except Fault _`: `Fault.length_error` is the exception thrown by the
  `std::vector` constructor, `Fault.undefined_behaviour` marks an iterator range that
  leaves the vector (the source performs no check there).
* The standard algorithms the stages call (`std::remove_if`, `std::transform`,
  `std::accumulate`, `std::iota`, `std::reverse`, `vector::erase`) are modelled by their
  reference loops, on offsets.
-/

namespace ki

/-! ## Machine integers -/

/-- Smallest value of the 32-bit `int`. -/
def INT_MIN : Int := -2147483648

/-- Largest value of the 32-bit `int`. -/
def INT_MAX : Int := 2147483647

/-- A value that fits the 32-bit `int`. -/
def inRange (x : Int) : Prop := INT_MIN ≤ x ∧ x ≤ INT_MAX

instance (x : Int) : Decidable (inRange x) := by
  unfold inRange; exact inferInstance

/-- Reduction of a mathematical integer to the 32-bit `int` holding it modulo `2^32`. -/
def wrapInt (x : Int) : Int := (x + 2147483648) % 4294967296 - 2147483648

/-- How a stage can end without a value. -/
inductive Fault where
  | length_error
  | undefined_behaviour
  deriving DecidableEq, Repr

/-! ## The standard algorithms -/

/-- `std::find_if(first, last, p)` over the whole range: the offset of the first element
satisfying `p`, or the length of the range (that is `last`) when there is none. -/
def find_if (p : α → Bool) : List α → Nat
  | [] => 0
  | x :: xs => if p x then 0 else find_if p xs + 1

/-- The loop of `std::remove_if`:
`for (i = first; ++i != last;) if (!p(*i)) *first++ = std::move(*i);`
entered with `i` already incremented; `buf[i]? = none` is `i == last`. The first argument
bounds the number of iterations (the loop runs at most `last - first - 1` times). -/
def remove_if_loop (p : α → Bool) : Nat → List α → Nat → Nat → List α × Nat
  | 0, buf, first, _ => (buf, first)
  | k + 1, buf, first, i =>
    match buf[i]? with
    | none => (buf, first)
    | some x =>
      if !p x then remove_if_loop p k (buf.set first x) (first + 1) (i + 1)
      else remove_if_loop p k buf first (i + 1)

/-- `std::remove_if(r.begin(), r.end(), p)`: the contents of the range afterwards and the
returned iterator (the new logical end). -/
def remove_if (r : List α) (p : α → Bool) : List α × Nat :=
  let first := find_if p r
  if first ≠ r.length then remove_if_loop p r.length r first (first + 1)
  else (r, first)

/-- `vector::erase(first, last)` on iterators given as offsets from `begin()`: removes the
elements of `[first, last)`. A range that is not inside the vector is undefined. -/
def erase (r : List α) (first last : Int) : Except Fault (List α) :=
  if 0 ≤ first ∧ first ≤ last ∧ last ≤ (r.length : Int) then
    .ok (r.take first.toNat ++ r.drop last.toNat)
  else .error Fault.undefined_behaviour

/-- `std::transform(first, last, first, op)`: `*d_first++ = op(*first++)` over the range. -/
def transform (op : α → α) : List α → List α
  | [] => []
  | x :: xs => op x :: transform op xs

/-- `std::accumulate(first, last, init, op)`: `init = op(init, *first)` over the range. -/
def accumulate (op : β → α → β) : List α → β → β
  | [], init => init
  | x :: xs, init => accumulate op xs (op init x)

/-- `std::iota(first, last, value)` on a vector of `int`:
`*first = value; ++value` over the range. -/
def std_iota : List Int → Int → List Int
  | [], _ => []
  | _ :: xs, value => value :: std_iota xs (wrapInt (value + 1))

/-- `std::iter_swap(a, b)` on two offsets of the range. -/
def iter_swap (buf : List α) (a b : Nat) : List α :=
  match buf[a]?, buf[b]? with
  | some x, some y => (buf.set a y).set b x
  | _, _ => buf

/-- The loop of `std::reverse`:
`while (first != last && first != --last) std::iter_swap(first++, last);`
The first argument bounds the number of iterations. -/
def reverse_loop : Nat → List α → Nat → Nat → List α
  | 0, buf, _, _ => buf
  | k + 1, buf, first, last =>
    if first ≠ last ∧ first ≠ last - 1 then
      reverse_loop k (iter_swap buf first (last - 1)) (first + 1) (last - 1)
    else buf

/-- `std::reverse(r.begin(), r.end())`. -/
def std_reverse (r : List α) : List α :=
  reverse_loop r.length r 0 r.length

/-- Largest size `std::vector<int>` accepts (`PTRDIFF_MAX / sizeof(int)`). -/
def max_size : Nat := 2305843009213693951

/-- `std::vector<int> v(t)` for an `int` `t`: `t` is converted to `size_t`, a size above
`max_size()` throws `std::length_error`, otherwise `t` zeros. -/
def vector_n (t : Int) : Except Fault (List Int) :=
  let n := (t % 18446744073709551616).toNat
  if n > max_size then .error Fault.length_error
  else .ok (List.replicate n 0)

/-! ## The stages: `operator|` for each proxy -/

/-- `r | filter(predicate)`. -/
def filter (r : List α) (predicate : α → Bool) : Except Fault (List α) :=
  let (r1, it) := remove_if r predicate
  erase r1 (it : Int) (r1.length : Int)

/-- `r | map(unary_op)`. -/
def map (r : List α) (unary_op : α → α) : List α :=
  transform unary_op r

/-- `r | fold(init, binary_op)`. -/
def fold (r : List α) (init : β) (binary_op : β → α → β) : β :=
  accumulate binary_op r init

/-- `t | iota()`. -/
def iota (t : Int) : Except Fault (List Int) := do
  let v ← vector_n t
  return std_iota v 0

/-- `r | reverse()`. -/
def reverse (r : List α) : List α :=
  std_reverse r

/-- `r | take(n)`. -/
def take (r : List α) (n : Int) : Except Fault (List α) :=
  erase r (0 + n) (r.length : Int)

/-- `r | drop(n)`. -/
def drop (r : List α) (n : Int) : Except Fault (List α) :=
  erase r 0 (0 + n)

/-! ## `main` -/

/-- `std::plus{}` on `int`: the sum where it fits `int`; where it does not (signed
overflow, undefined in the source, see `checked_plus`) the two's complement wrap. -/
def plus (a b : Int) : Int := wrapInt (a + b)

/-- `std::multiplies{}` on `int`: the product where it fits `int`; where it does not
(signed overflow, undefined in the source, see `checked_multiplies`) the two's complement
wrap. -/
def multiplies (a b : Int) : Int := wrapInt (a * b)

/-- The predicate of `main`: `e % 2 == 0`. -/
def is_even (e : Int) : Bool := Int.tmod e 2 == 0

/-- The transform of `main`: `e + 1`. -/
def add_one (e : Int) : Int := wrapInt (e + 1)

/-- The value `result` of `main`. -/
def main_result : Except Fault Int := do
  let v : List Int := [1, 2, 3, 4, 5]
  let s1 ← filter v is_even
  let s2 := map s1 add_one
  let s3 := fold s2 0 plus
  let s4 ← iota s3
  let s5 := reverse s4
  let s6 ← drop s5 4
  let s7 ← take s6 2
  return fold s7 1 multiplies

/-- What `main` writes: `fmt::print("{}\n", result)`. -/
def main_output : Except Fault String :=
  main_result.map (fun result => toString result ++ "\n")

/-! ## The specification's reading of fold -/

/-- The accumulation as the specification words it:
`acc = init; for each e in order: acc = g(acc, e); return acc`. -/
def spec_fold (s : List α) (init : β) (g : β → α → β) : β := Id.run do
  let mut acc := init
  for e in s do
    acc := g acc e
  return acc

/-! ## Signalled failures and iterator ranges -/

/-- Whether a fault is a failure the program signals: `std::length_error` is an exception
thrown to the caller, undefined behaviour signals nothing. -/
def Fault.is_thrown : Fault → Bool
  | .length_error => true
  | .undefined_behaviour => false

/-- The stage raises an error: it ends in a thrown exception, not in a value. -/
def raises : Except Fault α → Bool
  | .error e => e.is_thrown
  | .ok _ => false

/-- The iterator range `[begin() + first, begin() + last)` lies inside `r`: the
precondition of `vector::erase(first, last)`. -/
def valid_range (r : List α) (first last : Int) : Prop :=
  0 ≤ first ∧ first ≤ last ∧ last ≤ (r.length : Int)

/-! ## Signed overflow -/

/-- `std::plus{}` on `int` with its precondition: a sum that does not fit `int` is signed
overflow, undefined in the source. -/
def checked_plus (a b : Int) : Except Fault Int :=
  if inRange (a + b) then .ok (a + b) else .error Fault.undefined_behaviour

/-- `std::multiplies{}` on `int` with its precondition: a product that does not fit `int`
is signed overflow, undefined in the source. -/
def checked_multiplies (a b : Int) : Except Fault Int :=
  if inRange (a * b) then .ok (a * b) else .error Fault.undefined_behaviour

/-- `std::accumulate(first, last, init, op)` for an operation that can be undefined:
`init = op(init, *first)` over the range, stopping at the first undefined step. -/
def checked_accumulate (op : β → α → Except Fault β) : List α → β → Except Fault β
  | [], init => .ok init
  | x :: xs, init =>
    match op init x with
    | .ok acc => checked_accumulate op xs acc
    | .error e => .error e

/-- `r | fold(init, binary_op)` for an operation that can be undefined. -/
def checked_fold (r : List α) (init : β) (binary_op : β → α → Except Fault β) :
    Except Fault β :=
  checked_accumulate binary_op r init

/-! ## The loops of the standard algorithms -/

theorem remove_if_loop_spec (p : α → Bool) :
    ∀ (k : Nat) (K G R : List α), R.length ≤ k →
      (remove_if_loop p k (K ++ G ++ R) K.length (K.length + G.length)).1.length
          = (K ++ G ++ R).length ∧
      (remove_if_loop p k (K ++ G ++ R) K.length (K.length + G.length)).2
          = K.length + (R.filter (fun e => !p e)).length ∧
      (remove_if_loop p k (K ++ G ++ R) K.length (K.length + G.length)).1.take
          (remove_if_loop p k (K ++ G ++ R) K.length (K.length + G.length)).2
          = K ++ R.filter (fun e => !p e) := by
  intro k
  induction k with
  | zero =>
    intro K G R hR
    have hnil : R = [] := List.length_eq_zero.mp (Nat.le_zero.mp hR)
    subst hnil
    simp [remove_if_loop]
  | succ k ih =>
    intro K G R hR
    cases R with
    | nil =>
      have hget : (K ++ G ++ [])[K.length + G.length]? = none := by
        apply List.getElem?_eq_none
        simp
      rw [remove_if_loop, hget]
      simp
    | cons x R1 =>
      have hk : R1.length ≤ k := by simpa using hR
      have hget : (K ++ G ++ x :: R1)[K.length + G.length]? = some x := by
        rw [List.getElem?_append_right (by simp)]
        simp
      rw [remove_if_loop, hget]
      by_cases hp : p x = true
      · have h := ih K (G ++ [x]) R1 hk
        simp only [List.append_assoc, List.singleton_append, List.length_append,
          List.length_singleton, List.length_cons] at h ⊢
        simp only [hp, Bool.not_true, Bool.false_eq_true, if_false, List.filter_cons]
        simpa [Nat.add_assoc] using h
      · have hp1 : p x = false := by simpa using hp
        cases G with
        | nil =>
          have h := ih (K ++ [x]) [] R1 hk
          have hset : (K ++ [] ++ x :: R1).set K.length x = K ++ [x] ++ [] ++ R1 := by
            simp [List.set_append]
          simp only [hp1, Bool.not_false, if_true, List.filter_cons, hset]
          simp only [List.length_append, List.length_singleton, List.length_nil,
            Nat.add_zero] at h ⊢
          simpa [Nat.add_assoc, Nat.add_comm, Nat.add_left_comm] using h
        | cons g G1 =>
          have h := ih (K ++ [x]) (G1 ++ [x]) R1 hk
          have hset : (K ++ g :: G1 ++ x :: R1).set K.length x
              = K ++ [x] ++ (G1 ++ [x]) ++ R1 := by
            simp [List.set_append]
          simp only [hp1, Bool.not_false, if_true, List.filter_cons, hset]
          simp only [List.length_append, List.length_singleton, List.length_cons] at h ⊢
          simpa [Nat.add_assoc, Nat.add_comm, Nat.add_left_comm] using h

theorem find_if_split (p : α → Bool) :
    ∀ r : List α,
      (find_if p r = r.length ∧ r.filter (fun e => !p e) = r) ∨
      (∃ K x R, r = K ++ x :: R ∧ find_if p r = K.length ∧ p x = true ∧
        K.filter (fun e => !p e) = K) := by
  intro r
  induction r with
  | nil => left; simp [find_if]
  | cons a r ih =>
    by_cases hp : p a = true
    · right
      exact ⟨[], a, r, by simp, by simp [find_if, hp], hp, by simp⟩
    · have hp1 : p a = false := by simpa using hp
      rcases ih with ⟨h1, h2⟩ | ⟨K, x, R, h1, h2, h3, h4⟩
      · left
        simp [find_if, hp1, h1, h2]
      · right
        refine ⟨a :: K, x, R, by simp [h1], by simp [find_if, hp1, h2], h3, ?_⟩
        simp [hp1, h4]

theorem remove_if_spec (r : List α) (p : α → Bool) :
    (remove_if r p).1.length = r.length ∧
    (remove_if r p).2 = (r.filter (fun e => !p e)).length ∧
    (remove_if r p).1.take (remove_if r p).2 = r.filter (fun e => !p e) := by
  rcases find_if_split p r with ⟨h1, h2⟩ | ⟨K, x, R, h1, h2, h3, h4⟩
  · simp [remove_if, h1, h2]
  · have hne : find_if p r ≠ r.length := by
      rw [h2, h1]; simp
    have hloop := remove_if_loop_spec p r.length K [x] R (by rw [h1]; simp; omega)
    have hr : r = K ++ [x] ++ R := by simp [h1]
    have hfil : r.filter (fun e => !p e) = K ++ R.filter (fun e => !p e) := by
      rw [h1]; simp [h3, h4]
    have hne2 : ¬ K.length = r.length := by rw [← h2]; exact hne
    simp only [remove_if, ne_eq, h2, if_pos hne2]
    rw [hfil]
    simp only [List.length_singleton] at hloop
    rw [← hr] at hloop
    refine ⟨hloop.1, ?_, hloop.2.2⟩
    rw [hloop.2.1]; simp

/-- The filter stage returns the elements its predicate rejects, in order. -/
theorem filter_eq (r : List α) (p : α → Bool) :
    filter r p = .ok (r.filter (fun e => !p e)) := by
  have h := remove_if_spec r p
  unfold filter
  generalize remove_if r p = res at h
  obtain ⟨r1, it⟩ := res
  simp only at h ⊢
  have hle : it ≤ r1.length := by
    rw [h.2.1, h.1]; exact List.length_filter_le _ _
  unfold erase
  rw [if_pos ⟨by omega, by exact_mod_cast hle, le_refl _⟩]
  simp [h.2.2]

theorem transform_eq_map (op : α → α) (r : List α) : transform op r = r.map op := by
  induction r with
  | nil => rfl
  | cons x xs ih => simp [transform, ih]

theorem accumulate_eq_foldl (op : β → α → β) (r : List α) (init : β) :
    accumulate op r init = r.foldl op init := by
  induction r generalizing init with
  | nil => rfl
  | cons x xs ih => simp [accumulate, ih]

theorem wrapInt_of_inRange {x : Int} (h : inRange x) : wrapInt x = x := by
  unfold inRange INT_MIN INT_MAX at h
  unfold wrapInt
  omega

theorem wrapInt_inRange (x : Int) : inRange (wrapInt x) := by
  unfold inRange INT_MIN INT_MAX wrapInt
  omega

theorem std_iota_eq :
    ∀ (l : List Int) (value : Int), INT_MIN ≤ value → value + l.length ≤ INT_MAX + 1 →
      std_iota l value = (List.range l.length).map (fun i : Nat => value + (i : Int)) := by
  intro l
  induction l with
  | nil => intro value _ _; simp [std_iota]
  | cons a xs ih =>
    intro value hlo hhi
    cases xs with
    | nil => simp [std_iota, List.range_succ]
    | cons b ys =>
      have hlen : ((a :: b :: ys).length : Int) = (ys.length : Int) + 2 := by
        simp only [List.length_cons]; push_cast; omega
      rw [hlen] at hhi
      have hw : wrapInt (value + 1) = value + 1 := by
        apply wrapInt_of_inRange
        unfold inRange
        unfold INT_MIN at hlo ⊢
        unfold INT_MAX at hhi ⊢
        constructor <;> omega
      have hlen2 : ((b :: ys).length : Int) = (ys.length : Int) + 1 := by
        simp [List.length_cons]
      have h := ih (value + 1) (by omega) (by rw [hlen2]; omega)
      rw [std_iota, hw, h]
      have hsucc : (a :: b :: ys).length = (b :: ys).length + 1 := rfl
      rw [hsucc, List.range_succ_eq_map (b :: ys).length]
      simp [List.map_map, Function.comp_def, Int.add_assoc, Int.add_comm 1]

theorem iter_swap_append (A M B : List α) (x y : α) :
    iter_swap (A ++ x :: (M ++ y :: B)) A.length (A.length + 1 + M.length)
      = A ++ y :: (M ++ x :: B) := by
  have ha : (A ++ x :: (M ++ y :: B))[A.length]? = some x := by
    rw [List.getElem?_append_right (by simp)]; simp
  have hb : (A ++ x :: (M ++ y :: B))[A.length + 1 + M.length]? = some y := by
    rw [List.getElem?_append_right (by omega)]
    have : A.length + 1 + M.length - A.length = M.length + 1 := by omega
    rw [this, List.getElem?_cons_succ, List.getElem?_append_right (by simp)]
    simp
  unfold iter_swap
  rw [ha, hb]
  simp only
  have h1 : (A ++ x :: (M ++ y :: B)).set A.length y = A ++ y :: (M ++ y :: B) := by
    simp [List.set_append]
  rw [h1]
  rw [List.set_append]
  have hlt : ¬ (A.length + 1 + M.length < A.length) := by omega
  rw [if_neg hlt]
  have : A.length + 1 + M.length - A.length = M.length + 1 := by omega
  rw [this, List.set_cons_succ, List.set_append]
  simp

theorem reverse_loop_spec :
    ∀ (k : Nat) (A M B : List α), M.length ≤ k →
      reverse_loop k (A ++ M ++ B) A.length (A.length + M.length) = A ++ M.reverse ++ B := by
  intro k
  induction k with
  | zero =>
    intro A M B hM
    have hnil : M = [] := List.length_eq_zero.mp (Nat.le_zero.mp hM)
    subst hnil
    simp [reverse_loop]
  | succ k ih =>
    intro A M B hM
    cases M with
    | nil => simp [reverse_loop]
    | cons x M1 =>
      rcases List.eq_nil_or_concat M1 with rfl | ⟨M2, y, rfl⟩
      · simp [reverse_loop]
      · simp only [List.concat_eq_append] at hM ⊢
        have hk : M2.length ≤ k := by
          simp only [List.length_cons, List.length_append, List.length_singleton] at hM
          omega
        have hcond : A.length ≠ A.length + (x :: (M2 ++ [y])).length ∧
            A.length ≠ A.length + (x :: (M2 ++ [y])).length - 1 := by
          simp only [List.length_cons, List.length_append, List.length_singleton]
          constructor <;> omega
        rw [reverse_loop, if_pos hcond]
        have hlen : (x :: (M2 ++ [y])).length = M2.length + 2 := by simp
        have hidx : A.length + (x :: (M2 ++ [y])).length - 1 = A.length + 1 + M2.length := by
          rw [hlen]; omega
        rw [hidx]
        have hbuf : A ++ x :: (M2 ++ [y]) ++ B = A ++ x :: (M2 ++ y :: B) := by simp
        rw [hbuf, iter_swap_append]
        have h := ih (A ++ [y]) M2 (x :: B) hk
        simp only [List.length_append, List.length_singleton, List.append_assoc,
          List.singleton_append] at h
        rw [List.cons_append] at h
        rw [h]
        simp

theorem std_reverse_eq (r : List α) : std_reverse r = r.reverse := by
  have h := reverse_loop_spec r.length [] r [] (le_refl _)
  simpa [std_reverse] using h

theorem reverse_eq (r : List α) : reverse r = r.reverse := std_reverse_eq r

theorem take_eq (r : List α) (n : Int) (h0 : 0 ≤ n) (h1 : n ≤ (r.length : Int)) :
    take r n = .ok (r.take n.toNat) := by
  unfold take erase
  rw [if_pos ⟨by omega, by omega, le_refl _⟩]
  simp

theorem drop_eq (r : List α) (n : Int) (h0 : 0 ≤ n) (h1 : n ≤ (r.length : Int)) :
    drop r n = .ok (r.drop n.toNat) := by
  unfold drop erase
  rw [if_pos ⟨le_refl _, by omega, by omega⟩]
  simp

theorem iota_eq (n : Int) (h0 : 0 ≤ n) (h1 : n ≤ INT_MAX) :
    iota n = .ok ((List.range n.toNat).map (fun i : Nat => (i : Int))) := by
  unfold INT_MAX at h1
  have hmod : n % 18446744073709551616 = n := Int.emod_eq_of_lt h0 (by omega)
  have hsz : ¬ (n.toNat > max_size) := by
    unfold max_size; omega
  unfold iota vector_n
  simp only [hmod, if_neg hsz]
  have h := std_iota_eq (List.replicate n.toNat 0) 0 (by unfold INT_MIN; omega)
    (by simp only [List.length_replicate]; unfold INT_MAX; omega)
  simp only [List.length_replicate, Int.zero_add] at h
  show Except.ok (std_iota (List.replicate n.toNat 0) 0) = _
  rw [h]

theorem spec_fold_eq_foldl (s : List α) (init : β) (g : β → α → β) :
    spec_fold s init g = s.foldl g init := by
  unfold spec_fold
  induction s generalizing init with
  | nil => rfl
  | cons x xs ih => simpa [Id.run] using ih (g init x)

theorem fold_plus_wrap (s : List Int) (acc : Int) (hacc : inRange acc) :
    accumulate plus s acc = wrapInt (acc + s.sum) := by
  induction s generalizing acc with
  | nil => simp [accumulate, wrapInt_of_inRange hacc]
  | cons x xs ih =>
    rw [accumulate, ih (plus acc x) (wrapInt_inRange _)]
    unfold plus wrapInt
    simp only [List.sum_cons]
    omega

/-! ## Properties of the stages and of `main` -/

/-- C1, as stated, fails: the chain of `main` does not evaluate to 6, its filter stage does
not yield `[2, 4]`, and the program does not print `6`. -/
theorem main_result_ne_six :
    main_result ≠ .ok 6 ∧ filter [1, 2, 3, 4, 5] is_even ≠ .ok [2, 4] ∧
    main_output ≠ .ok "6\n" := by
  refine ⟨?_, ?_, ?_⟩
  · intro h
    have h42 : main_result = .ok 42 := rfl
    rw [h42] at h
    injection h with h
    exact absurd h (by decide)
  · rw [filter_eq]
    intro h
    injection h with h
    exact absurd h (by decide)
  · intro h
    have h42 : main_output = .ok "42\n" := rfl
    rw [h42] at h
    injection h with h
    exact absurd h (by decide)

/-- C1, amended: the chain of `main` on `[1,2,3,4,5]` goes through the stage values
`[1,3,5]`, `[2,4,6]`, `12`, `[0..11]`, `[11..0]`, `[7..0]`, `[7,6]` and evaluates to the
scalar 42, so the program prints `42`. -/
theorem main_result_eq :
    filter [1, 2, 3, 4, 5] is_even = .ok [1, 3, 5] ∧
    map [1, 3, 5] add_one = [2, 4, 6] ∧
    fold [2, 4, 6] 0 plus = 12 ∧
    iota 12 = .ok [0, 1, 2, 3, 4, 5, 6, 7, 8, 9, 10, 11] ∧
    reverse [0, 1, 2, 3, 4, 5, 6, 7, 8, 9, 10, 11]
      = ([11, 10, 9, 8, 7, 6, 5, 4, 3, 2, 1, 0] : List Int) ∧
    drop ([11, 10, 9, 8, 7, 6, 5, 4, 3, 2, 1, 0] : List Int) 4
      = .ok [7, 6, 5, 4, 3, 2, 1, 0] ∧
    take ([7, 6, 5, 4, 3, 2, 1, 0] : List Int) 2 = .ok [7, 6] ∧
    fold [7, 6] 1 multiplies = 42 ∧
    main_result = .ok 42 ∧
    main_output = .ok "42\n" :=
  ⟨rfl, rfl, rfl, rfl, rfl, rfl, rfl, rfl, rfl, rfl⟩

/-- C2: for every sequence and predicate the filter stage returns exactly the elements with
`p e` false, in their original order: a sublist of the input, no longer than it, none of
whose elements satisfies `p`. -/
theorem filter_spec (s : List α) (p : α → Bool) :
    ∃ t, filter s p = .ok t ∧ t = s.filter (fun e => !p e) ∧ t.Sublist s ∧
      t.length ≤ s.length ∧ (∀ e ∈ t, p e = false) ∧
      (∀ e, e ∈ t ↔ e ∈ s ∧ p e = false) := by
  refine ⟨s.filter (fun e => !p e), filter_eq s p, rfl, List.filter_sublist s,
    List.length_filter_le _ s, ?_, ?_⟩
  · intro e he
    simpa using (List.mem_filter.mp he).2
  · intro e
    simp [List.mem_filter]

/-- C3: the fold stage is the left-to-right accumulation of the specification (a left
fold): it starts from `init`, each further element `e` turns the value `acc` reached so far
into `g acc e`, and on the empty sequence it returns `init`. -/
theorem fold_spec (s : List α) (init : β) (g : β → α → β) :
    fold s init g = spec_fold s init g ∧ fold s init g = s.foldl g init ∧
    fold ([] : List α) init g = init ∧
    (∀ e, fold (s ++ [e]) init g = g (fold s init g) e) := by
  refine ⟨?_, ?_, rfl, ?_⟩
  · rw [spec_fold_eq_foldl]; exact accumulate_eq_foldl g s init
  · exact accumulate_eq_foldl g s init
  · intro e
    simp [fold, accumulate_eq_foldl]

/-- C4, as stated, fails: on `[2147483647, 1]`, a sequence of two `int` values, the fold
with `0` and `plus` returns `-2147483648`, not the sum `2147483648` (which no `int` holds). -/
theorem fold_plus_overflow :
    inRange 2147483647 ∧ inRange 1 ∧
    fold [2147483647, 1] 0 plus = -2147483648 ∧
    fold [2147483647, 1] 0 plus ≠ ([2147483647, 1] : List Int).sum ∧
    ¬ inRange ([2147483647, 1] : List Int).sum := by
  decide

/-- C4, amended: when every running sum (the sum of each prefix of `s`) fits `int`, the
fold with `0` and `plus` equals the sum of the elements of `s`. -/
theorem fold_plus_sum (s : List Int) (h : ∀ k, k ≤ s.length → inRange (s.take k).sum) :
    fold s 0 plus = s.sum := by
  unfold fold
  rw [fold_plus_wrap s 0 (by decide), Int.zero_add]
  apply wrapInt_of_inRange
  simpa using h s.length (le_refl _)

theorem fold_plus_sum_witness :
    (∀ k, k ≤ ([3, 5] : List Int).length → inRange (([3, 5] : List Int).take k).sum) ∧
    fold [3, 5] 0 plus = ([3, 5] : List Int).sum :=
  have hw : ∀ k, k ≤ ([3, 5] : List Int).length → inRange (([3, 5] : List Int).take k).sum := by
    intro k hk
    have hk2 : k ≤ 2 := hk
    interval_cases k <;> decide
  ⟨hw, fold_plus_sum [3, 5] hw⟩

/-- C5: the map stage keeps the length and puts `f (s[i])` at every index `i`. -/
theorem map_spec (s : List α) (f : α → α) :
    (map s f).length = s.length ∧ ∀ i : Nat, (map s f)[i]? = (s[i]?).map f := by
  unfold map
  rw [transform_eq_map]
  exact ⟨List.length_map s f, fun i => by simp⟩

/-- C6: for every `int` count `n ≥ 0` the iota stage returns the sequence `0, 1, ..., n-1`:
its length is `n`, its element at index `i` is `i`; and for the count 0 it returns the
empty sequence. -/
theorem iota_spec (n : Int) (h0 : 0 ≤ n) (h1 : n ≤ INT_MAX) :
    ∃ v, iota n = .ok v ∧ v = (List.range n.toNat).map (fun i : Nat => (i : Int)) ∧
      (v.length : Int) = n ∧
      (∀ i : Nat, (i : Int) < n → v[i]? = some (i : Int)) ∧
      (∀ i : Nat, n ≤ (i : Int) → v[i]? = none) ∧
      iota 0 = .ok [] := by
  refine ⟨_, iota_eq n h0 h1, rfl, ?_, ?_, ?_, rfl⟩
  · simp only [List.length_map, List.length_range]
    omega
  · intro i hi
    have hlt : i < n.toNat := by omega
    simp [List.getElem?_range hlt, hlt]
  · intro i hi
    apply List.getElem?_eq_none
    simp only [List.length_map, List.length_range]
    omega

theorem iota_spec_witness :
    (0 : Int) ≤ 8 ∧ (8 : Int) ≤ INT_MAX ∧
    ∃ v, iota 8 = .ok v ∧ v = (List.range (8 : Int).toNat).map (fun i : Nat => (i : Int)) ∧
      (v.length : Int) = 8 ∧
      (∀ i : Nat, (i : Int) < 8 → v[i]? = some (i : Int)) ∧
      (∀ i : Nat, (8 : Int) ≤ (i : Int) → v[i]? = none) ∧
      iota 0 = .ok [] :=
  ⟨by decide, by decide, iota_spec 8 (by decide) (by decide)⟩

/-- C7: for `0 ≤ n ≤ length s` the take stage returns a sequence of length `n`, the first
`n` elements of `s` in order; `take 0` is empty and `take (length s)` is `s`. -/
theorem take_spec (s : List α) (n : Int) (h0 : 0 ≤ n) (h1 : n ≤ (s.length : Int)) :
    ∃ t, take s n = .ok t ∧ (t.length : Int) = n ∧ t = s.take n.toNat ∧ t <+: s ∧
      (∀ i : Nat, (i : Int) < n → t[i]? = s[i]?) ∧
      take s 0 = .ok [] ∧ take s (s.length : Int) = .ok s := by
  refine ⟨_, take_eq s n h0 h1, ?_, rfl, List.take_prefix _ s, ?_, ?_, ?_⟩
  · rw [List.length_take]
    omega
  · intro i hi
    have hlt : i < n.toNat := by omega
    simp [List.getElem?_take, hlt]
  · rw [take_eq s 0 (le_refl _) (by omega)]
    simp
  · rw [take_eq s s.length (by omega) (le_refl _)]
    simp

theorem take_spec_witness :
    (0 : Int) ≤ 2 ∧ (2 : Int) ≤ (([7, 6, 5] : List Int).length : Int) ∧
    ∃ t, take ([7, 6, 5] : List Int) 2 = .ok t ∧ (t.length : Int) = 2 ∧
      t = ([7, 6, 5] : List Int).take (2 : Int).toNat ∧ t <+: [7, 6, 5] ∧
      (∀ i : Nat, (i : Int) < 2 → t[i]? = ([7, 6, 5] : List Int)[i]?) ∧
      take ([7, 6, 5] : List Int) 0 = .ok [] ∧
      take ([7, 6, 5] : List Int) (([7, 6, 5] : List Int).length : Int) = .ok [7, 6, 5] :=
  ⟨by decide, by decide, take_spec [7, 6, 5] 2 (by decide) (by decide)⟩

/-- C8: for `0 ≤ n ≤ length s` the drop stage returns a sequence of length `length s - n`,
`s` without its first `n` elements (element `i` of the result is `s[n + i]`); `drop 0` is
`s` and `drop (length s)` is empty. -/
theorem drop_spec (s : List α) (n : Int) (h0 : 0 ≤ n) (h1 : n ≤ (s.length : Int)) :
    ∃ t, drop s n = .ok t ∧ (t.length : Int) = (s.length : Int) - n ∧
      t = s.drop n.toNat ∧ t <:+ s ∧
      (∀ i : Nat, t[i]? = s[n.toNat + i]?) ∧
      drop s 0 = .ok s ∧ drop s (s.length : Int) = .ok [] := by
  refine ⟨_, drop_eq s n h0 h1, ?_, rfl, List.drop_suffix _ s, ?_, ?_, ?_⟩
  · rw [List.length_drop]
    omega
  · intro i
    simp [List.getElem?_drop]
  · rw [drop_eq s 0 (le_refl _) (by omega)]
    simp
  · rw [drop_eq s s.length (by omega) (le_refl _)]
    simp

theorem drop_spec_witness :
    (0 : Int) ≤ 1 ∧ (1 : Int) ≤ (([7, 6, 5] : List Int).length : Int) ∧
    ∃ t, drop ([7, 6, 5] : List Int) 1 = .ok t ∧
      (t.length : Int) = (([7, 6, 5] : List Int).length : Int) - 1 ∧
      t = ([7, 6, 5] : List Int).drop (1 : Int).toNat ∧ t <:+ [7, 6, 5] ∧
      (∀ i : Nat, t[i]? = ([7, 6, 5] : List Int)[(1 : Int).toNat + i]?) ∧
      drop ([7, 6, 5] : List Int) 0 = .ok [7, 6, 5] ∧
      drop ([7, 6, 5] : List Int) (([7, 6, 5] : List Int).length : Int) = .ok [] :=
  ⟨by decide, by decide, drop_spec [7, 6, 5] 1 (by decide) (by decide)⟩

/-- C9: reversing twice gives the sequence back. -/
theorem reverse_involution (s : List α) : reverse (reverse s) = s := by
  rw [reverse_eq, reverse_eq, List.reverse_reverse]

/-- C10: the reverse stage keeps the length and puts `s[length s - 1 - i]` at every index
`i` of the result. -/
theorem reverse_spec (s : List α) :
    (reverse s).length = s.length ∧
    (∀ i : Nat, i < s.length → (reverse s)[i]? = s[s.length - 1 - i]?) ∧
    (∀ i : Nat, s.length ≤ i → (reverse s)[i]? = none) := by
  rw [reverse_eq]
  refine ⟨List.length_reverse s, ?_, ?_⟩
  · intro i hi
    exact List.getElem?_reverse hi
  · intro i hi
    apply List.getElem?_eq_none
    rw [List.length_reverse]
    exact hi

theorem erase_ok_iff (r : List α) (first last : Int) :
    (∃ t, erase r first last = .ok t) ↔ valid_range r first last := by
  unfold erase valid_range
  by_cases h : 0 ≤ first ∧ first ≤ last ∧ last ≤ (r.length : Int)
  · rw [if_pos h]
    exact ⟨fun _ => h, fun _ => ⟨_, rfl⟩⟩
  · rw [if_neg h]
    constructor
    · rintro ⟨t, ht⟩
      cases ht
    · intro h2
      exact absurd h2 h

theorem erase_undefined (r : List α) (first last : Int) (h : ¬ valid_range r first last) :
    erase r first last = .error Fault.undefined_behaviour := by
  unfold erase
  unfold valid_range at h
  rw [if_neg h]

theorem take_range_iff (s : List α) (n : Int) :
    valid_range s (0 + n) (s.length : Int) ↔ 0 ≤ n ∧ n ≤ (s.length : Int) := by
  unfold valid_range
  constructor
  · rintro ⟨h1, h2, _⟩
    constructor <;> omega
  · rintro ⟨h1, h2⟩
    refine ⟨by omega, by omega, le_refl _⟩

theorem drop_range_iff (s : List α) (n : Int) :
    valid_range s 0 (0 + n) ↔ 0 ≤ n ∧ n ≤ (s.length : Int) := by
  unfold valid_range
  constructor
  · rintro ⟨_, h2, h3⟩
    constructor <;> omega
  · rintro ⟨h1, h2⟩
    refine ⟨le_refl _, by omega, by omega⟩

theorem take_undefined (s : List α) (n : Int) (h : n < 0 ∨ (s.length : Int) < n) :
    take s n = .error Fault.undefined_behaviour := by
  unfold take
  apply erase_undefined
  rw [take_range_iff]
  omega

theorem drop_undefined (s : List α) (n : Int) (h : n < 0 ∨ (s.length : Int) < n) :
    drop s n = .error Fault.undefined_behaviour := by
  unfold drop
  apply erase_undefined
  rw [drop_range_iff]
  omega

/-- C11, as stated, fails: `take(4)` and `drop(4)` on the three-element `[1, 2, 3]`, and
`take(-1)`, `drop(-1)`, erase a range outside the vector without any check; the outcome is
undefined behaviour, and no error is raised. -/
theorem take_out_of_range_not_raised :
    take ([1, 2, 3] : List Int) 4 = .error Fault.undefined_behaviour ∧
    raises (take ([1, 2, 3] : List Int) 4) = false ∧
    raises (drop ([1, 2, 3] : List Int) 4) = false ∧
    raises (take ([1, 2, 3] : List Int) (-1)) = false ∧
    raises (drop ([1, 2, 3] : List Int) (-1)) = false :=
  ⟨rfl, rfl, rfl, rfl, rfl⟩

/-- C11, amended: for every sequence `s` and every `n` with `n > length s` or `n < 0`, the
take and drop stages erase an iterator range that leaves the sequence, unchecked: the
outcome is undefined behaviour, no error is raised and no result sequence is defined. -/
theorem take_drop_out_of_range (s : List α) (n : Int)
    (h : n < 0 ∨ (s.length : Int) < n) :
    take s n = .error Fault.undefined_behaviour ∧
    drop s n = .error Fault.undefined_behaviour ∧
    raises (take s n) = false ∧ raises (drop s n) = false ∧
    (∀ t, take s n ≠ .ok t) ∧ (∀ t, drop s n ≠ .ok t) := by
  have ht := take_undefined s n h
  have hd := drop_undefined s n h
  refine ⟨ht, hd, ?_, ?_, ?_, ?_⟩
  · rw [ht]; rfl
  · rw [hd]; rfl
  · intro t heq
    rw [ht] at heq
    cases heq
  · intro t heq
    rw [hd] at heq
    cases heq

theorem take_drop_out_of_range_witness :
    ((4 : Int) < 0 ∨ ((([1, 2, 3] : List Int).length : Int) < 4)) ∧
    (take ([1, 2, 3] : List Int) 4 = .error Fault.undefined_behaviour ∧
    drop ([1, 2, 3] : List Int) 4 = .error Fault.undefined_behaviour ∧
    raises (take ([1, 2, 3] : List Int) 4) = false ∧
    raises (drop ([1, 2, 3] : List Int) 4) = false ∧
    (∀ t, take ([1, 2, 3] : List Int) 4 ≠ .ok t) ∧
    (∀ t, drop ([1, 2, 3] : List Int) 4 ≠ .ok t)) :=
  ⟨by decide, take_drop_out_of_range [1, 2, 3] 4 (by decide)⟩

/-- C12: for every negative `int` count the iota stage fails: the vector constructor throws
`std::length_error` (the count converted to `size_t` exceeds `max_size()`), so no sequence
is returned. -/
theorem iota_negative (n : Int) (hneg : n < 0) (hmin : INT_MIN ≤ n) :
    iota n = .error Fault.length_error ∧ raises (iota n) = true ∧
    (∀ v, iota n ≠ .ok v) := by
  unfold INT_MIN at hmin
  have hmod : n % 18446744073709551616 = n + 18446744073709551616 := by omega
  have hsz : (n + 18446744073709551616).toNat > max_size := by
    unfold max_size; omega
  have hv : vector_n n = .error Fault.length_error := by
    unfold vector_n
    simp only [hmod, if_pos hsz]
  have hi : iota n = .error Fault.length_error := by
    unfold iota
    rw [hv]
    rfl
  refine ⟨hi, ?_, ?_⟩
  · rw [hi]; rfl
  · intro v heq
    rw [hi] at heq
    cases heq

theorem iota_negative_witness :
    (-1 : Int) < 0 ∧ INT_MIN ≤ (-1 : Int) ∧
    (iota (-1) = .error Fault.length_error ∧ raises (iota (-1)) = true ∧
    (∀ v, iota (-1) ≠ .ok v)) :=
  ⟨by decide, by decide, iota_negative (-1) (by decide) (by decide)⟩

/-- C13: the range erased by take, `[begin + n, end)`, and the range erased by drop,
`[begin, begin + n)`, lie inside `s` exactly when `0 ≤ n ≤ length s`; under that
precondition both stages return a sequence (the undefined branch is not taken), and for
every other `n` the range leaves the sequence and the outcome is undefined. -/
theorem take_drop_in_bounds_iff (s : List α) (n : Int) :
    (valid_range s (0 + n) (s.length : Int) ↔ 0 ≤ n ∧ n ≤ (s.length : Int)) ∧
    (valid_range s 0 (0 + n) ↔ 0 ≤ n ∧ n ≤ (s.length : Int)) ∧
    ((∃ t, take s n = .ok t) ↔ 0 ≤ n ∧ n ≤ (s.length : Int)) ∧
    ((∃ t, drop s n = .ok t) ↔ 0 ≤ n ∧ n ≤ (s.length : Int)) ∧
    (take s n = .error Fault.undefined_behaviour ↔ ¬ (0 ≤ n ∧ n ≤ (s.length : Int))) ∧
    (drop s n = .error Fault.undefined_behaviour ↔ ¬ (0 ≤ n ∧ n ≤ (s.length : Int))) := by
  refine ⟨take_range_iff s n, drop_range_iff s n, ?_, ?_, ?_, ?_⟩
  · unfold take
    rw [erase_ok_iff, take_range_iff]
  · unfold drop
    rw [erase_ok_iff, drop_range_iff]
  · constructor
    · rintro heq ⟨h0, h1⟩
      rw [take_eq s n h0 h1] at heq
      cases heq
    · intro hne
      exact take_undefined s n (by omega)
  · constructor
    · rintro heq ⟨h0, h1⟩
      rw [drop_eq s n h0 h1] at heq
      cases heq
    · intro hne
      exact drop_undefined s n (by omega)

theorem wrapInt_add_mul (x m : Int) : wrapInt (x + 4294967296 * m) = wrapInt x := by
  unfold wrapInt
  rw [show x + 4294967296 * m + 2147483648 = x + 2147483648 + 4294967296 * m by ring,
    Int.add_mul_emod_self_left]

theorem wrapInt_exists (a : Int) : ∃ k, wrapInt a = a + 4294967296 * k :=
  ⟨-((a + 2147483648) / 4294967296), by unfold wrapInt; omega⟩

theorem wrapInt_mul_left (a b : Int) : wrapInt (wrapInt a * b) = wrapInt (a * b) := by
  obtain ⟨k, hk⟩ := wrapInt_exists a
  rw [hk, show (a + 4294967296 * k) * b = a * b + 4294967296 * (k * b) by ring,
    wrapInt_add_mul]

theorem fold_multiplies_wrap (s : List Int) (acc : Int) (hacc : inRange acc) :
    accumulate multiplies s acc = wrapInt (acc * s.prod) := by
  induction s generalizing acc with
  | nil => simp [accumulate, wrapInt_of_inRange hacc]
  | cons x xs ih =>
    rw [accumulate, ih (multiplies acc x) (wrapInt_inRange _)]
    unfold multiplies
    rw [wrapInt_mul_left, List.prod_cons, Int.mul_assoc]

/-- C14: in the chain of `main` every stage runs inside its precondition: the scalar given
to iota is a non-negative `int`, the sequence given to `drop(4)` has at least 4 elements,
the sequence given to `take(2)` has at least 2, and every stage returns a value, so
`main` reaches its result without an out-of-bounds or error branch. -/
theorem main_preconditions :
    ∃ s1 s4 s6 s7,
      filter [1, 2, 3, 4, 5] is_even = .ok s1 ∧
      0 ≤ fold (map s1 add_one) 0 plus ∧ fold (map s1 add_one) 0 plus ≤ INT_MAX ∧
      iota (fold (map s1 add_one) 0 plus) = .ok s4 ∧
      (4 : Int) ≤ ((reverse s4).length : Int) ∧ valid_range (reverse s4) 0 (0 + 4) ∧
      drop (reverse s4) 4 = .ok s6 ∧
      (2 : Int) ≤ (s6.length : Int) ∧ valid_range s6 (0 + 2) (s6.length : Int) ∧
      take s6 2 = .ok s7 ∧
      main_result = .ok (fold s7 1 multiplies) := by
  refine ⟨[1, 3, 5], [0, 1, 2, 3, 4, 5, 6, 7, 8, 9, 10, 11], [7, 6, 5, 4, 3, 2, 1, 0],
    [7, 6], rfl, by decide, by decide, rfl, by decide, ?_, rfl, by decide, ?_, rfl, rfl⟩
  · unfold valid_range; decide
  · unfold valid_range; decide

/-- C15: for `0 ≤ n ≤ length s` the take and drop stages both return, and the result of
take followed by the result of drop is `s`. -/
theorem take_drop_split (s : List α) (n : Int) (h0 : 0 ≤ n) (h1 : n ≤ (s.length : Int)) :
    ∃ a b, take s n = .ok a ∧ drop s n = .ok b ∧ a ++ b = s :=
  ⟨_, _, take_eq s n h0 h1, drop_eq s n h0 h1, List.take_append_drop _ s⟩

theorem take_drop_split_witness :
    (0 : Int) ≤ 2 ∧ (2 : Int) ≤ (([7, 6, 5] : List Int).length : Int) ∧
    ∃ a b, take ([7, 6, 5] : List Int) 2 = .ok a ∧ drop ([7, 6, 5] : List Int) 2 = .ok b ∧
      a ++ b = [7, 6, 5] :=
  ⟨by decide, by decide, take_drop_split [7, 6, 5] 2 (by decide) (by decide)⟩

/-- C16: for `0 ≤ n ≤ length s`, dropping `n` elements and reversing gives the same
sequence as reversing and taking `length s - n` elements; both sides return. -/
theorem reverse_drop_take (s : List α) (n : Int) (h0 : 0 ≤ n) (h1 : n ≤ (s.length : Int)) :
    ∃ d t, drop s n = .ok d ∧ take (reverse s) ((s.length : Int) - n) = .ok t ∧
      reverse d = t := by
  have hlen : ((reverse s).length : Int) = (s.length : Int) := by
    rw [reverse_eq, List.length_reverse]
  refine ⟨_, _, drop_eq s n h0 h1,
    take_eq (reverse s) ((s.length : Int) - n) (by omega) (by omega), ?_⟩
  rw [reverse_eq, reverse_eq, List.reverse_drop]
  congr 1
  omega

theorem reverse_drop_take_witness :
    (0 : Int) ≤ 1 ∧ (1 : Int) ≤ (([7, 6, 5] : List Int).length : Int) ∧
    ∃ d t, drop ([7, 6, 5] : List Int) 1 = .ok d ∧
      take (reverse ([7, 6, 5] : List Int)) ((([7, 6, 5] : List Int).length : Int) - 1)
        = .ok t ∧
      reverse d = t :=
  ⟨by decide, by decide, reverse_drop_take [7, 6, 5] 1 (by decide) (by decide)⟩

/-- C17: for `int` counts `0 ≤ k ≤ n`, taking `k` elements of the iota sequence of `n` gives
the iota sequence of `k`; all three stages return. -/
theorem iota_take (n k : Int) (h0 : 0 ≤ k) (h1 : k ≤ n) (h2 : n ≤ INT_MAX) :
    ∃ v w, iota n = .ok v ∧ take v k = .ok w ∧ iota k = .ok w := by
  have hn := iota_eq n (by omega) h2
  have hk := iota_eq k h0 (by omega)
  refine ⟨_, _, hn, ?_, hk⟩
  rw [take_eq _ k h0 (by simp only [List.length_map, List.length_range]; omega)]
  rw [← List.map_take, List.take_range]
  congr 3
  omega

theorem iota_take_witness :
    (0 : Int) ≤ 3 ∧ (3 : Int) ≤ 8 ∧ (8 : Int) ≤ INT_MAX ∧
    ∃ v w, iota 8 = .ok v ∧ take v 3 = .ok w ∧ iota 3 = .ok w :=
  ⟨by decide, by decide, by decide, iota_take 8 3 (by decide) (by decide) (by decide)⟩

theorem fold_reverse_wrap (s : List Int) :
    fold (reverse s) 0 plus = fold s 0 plus ∧
    fold (reverse s) 1 multiplies = fold s 1 multiplies := by
  unfold fold
  rw [reverse_eq]
  constructor
  · rw [fold_plus_wrap _ 0 (by decide), fold_plus_wrap _ 0 (by decide), List.sum_reverse]
  · rw [fold_multiplies_wrap _ 1 (by decide), fold_multiplies_wrap _ 1 (by decide),
      List.prod_reverse]

theorem checked_accumulate_plus (s : List Int) :
    ∀ acc : Int, (∀ k, k ≤ s.length → inRange (acc + (s.take k).sum)) →
      checked_accumulate checked_plus s acc = .ok (acc + s.sum) := by
  induction s with
  | nil => intro acc _; simp [checked_accumulate]
  | cons x xs ih =>
    intro acc h
    have h1 : inRange (acc + x) := by
      simpa using h 1 (by simp)
    have hstep : checked_plus acc x = .ok (acc + x) := by
      unfold checked_plus
      rw [if_pos h1]
    have hrest : ∀ k, k ≤ xs.length → inRange (acc + x + (xs.take k).sum) := by
      intro k hk
      have := h (k + 1) (by simpa using hk)
      simpa [List.take_succ_cons, Int.add_assoc] using this
    rw [checked_accumulate, hstep]
    simp only
    rw [ih (acc + x) hrest, List.sum_cons, Int.add_assoc]

theorem checked_accumulate_multiplies (s : List Int) :
    ∀ acc : Int, (∀ k, k ≤ s.length → inRange (acc * (s.take k).prod)) →
      checked_accumulate checked_multiplies s acc = .ok (acc * s.prod) := by
  induction s with
  | nil => intro acc _; simp [checked_accumulate]
  | cons x xs ih =>
    intro acc h
    have h1 : inRange (acc * x) := by
      simpa using h 1 (by simp)
    have hstep : checked_multiplies acc x = .ok (acc * x) := by
      unfold checked_multiplies
      rw [if_pos h1]
    have hrest : ∀ k, k ≤ xs.length → inRange (acc * x * (xs.take k).prod) := by
      intro k hk
      have := h (k + 1) (by simpa using hk)
      simpa [List.take_succ_cons, Int.mul_assoc] using this
    rw [checked_accumulate, hstep]
    simp only
    rw [ih (acc * x) hrest, List.prod_cons, Int.mul_assoc]

theorem checked_accumulate_plus_agrees (s : List Int) :
    ∀ acc v : Int, checked_accumulate checked_plus s acc = .ok v →
      accumulate plus s acc = v := by
  induction s with
  | nil =>
    intro acc v h
    simp only [checked_accumulate] at h
    injection h
  | cons x xs ih =>
    intro acc v h
    by_cases hr : inRange (acc + x)
    · have hstep : checked_plus acc x = .ok (acc + x) := by
        unfold checked_plus
        rw [if_pos hr]
      rw [checked_accumulate, hstep] at h
      simp only at h
      have hp : plus acc x = acc + x := wrapInt_of_inRange hr
      rw [accumulate, hp]
      exact ih (acc + x) v h
    · have hstep : checked_plus acc x = .error Fault.undefined_behaviour := by
        unfold checked_plus
        rw [if_neg hr]
      rw [checked_accumulate, hstep] at h
      simp only at h
      cases h

theorem checked_accumulate_multiplies_agrees (s : List Int) :
    ∀ acc v : Int, checked_accumulate checked_multiplies s acc = .ok v →
      accumulate multiplies s acc = v := by
  induction s with
  | nil =>
    intro acc v h
    simp only [checked_accumulate] at h
    injection h
  | cons x xs ih =>
    intro acc v h
    by_cases hr : inRange (acc * x)
    · have hstep : checked_multiplies acc x = .ok (acc * x) := by
        unfold checked_multiplies
        rw [if_pos hr]
      rw [checked_accumulate, hstep] at h
      simp only at h
      have hp : multiplies acc x = acc * x := wrapInt_of_inRange hr
      rw [accumulate, hp]
      exact ih (acc * x) v h
    · have hstep : checked_multiplies acc x = .error Fault.undefined_behaviour := by
        unfold checked_multiplies
        rw [if_neg hr]
      rw [checked_accumulate, hstep] at h
      simp only at h
      cases h

/-- C18, as stated, fails: on `[2147483647, 1, -1]` the fold with `0` and `plus` overflows
at its second step (undefined) while on the reversed sequence it returns `2147483647`; on
`[65536, 65536, 0]` the fold with `1` and `multiplies` overflows while on the reversed
sequence it returns `0`. -/
theorem fold_reverse_overflow :
    checked_fold ([2147483647, 1, -1] : List Int) 0 checked_plus
      = .error Fault.undefined_behaviour ∧
    checked_fold (reverse ([2147483647, 1, -1] : List Int)) 0 checked_plus
      = .ok 2147483647 ∧
    checked_fold (reverse ([2147483647, 1, -1] : List Int)) 0 checked_plus
      ≠ checked_fold ([2147483647, 1, -1] : List Int) 0 checked_plus ∧
    checked_fold ([65536, 65536, 0] : List Int) 1 checked_multiplies
      = .error Fault.undefined_behaviour ∧
    checked_fold (reverse ([65536, 65536, 0] : List Int)) 1 checked_multiplies = .ok 0 ∧
    checked_fold (reverse ([65536, 65536, 0] : List Int)) 1 checked_multiplies
      ≠ checked_fold ([65536, 65536, 0] : List Int) 1 checked_multiplies := by
  have a1 : checked_fold ([2147483647, 1, -1] : List Int) 0 checked_plus
      = .error Fault.undefined_behaviour := rfl
  have a2 : checked_fold (reverse ([2147483647, 1, -1] : List Int)) 0 checked_plus
      = .ok 2147483647 := rfl
  have b1 : checked_fold ([65536, 65536, 0] : List Int) 1 checked_multiplies
      = .error Fault.undefined_behaviour := rfl
  have b2 : checked_fold (reverse ([65536, 65536, 0] : List Int)) 1 checked_multiplies
      = .ok 0 := rfl
  refine ⟨a1, a2, ?_, b1, b2, ?_⟩
  · rw [a1, a2]
    intro h
    cases h
  · rw [b1, b2]
    intro h
    cases h

/-- C18, amended: when no running sum of `s` and of the reversed `s` overflows `int`, the
fold with `0` and `plus` is defined on both and gives the same value, the sum of `s`; when
no running product of `s` and of the reversed `s` overflows `int`, the fold with `1` and
`multiplies` is defined on both and gives the same value, the product of `s`. -/
theorem fold_reverse_no_overflow (s : List Int) :
    ((∀ k, k ≤ s.length → inRange (s.take k).sum) →
      (∀ k, k ≤ (reverse s).length → inRange ((reverse s).take k).sum) →
        checked_fold (reverse s) 0 checked_plus = checked_fold s 0 checked_plus ∧
        checked_fold s 0 checked_plus = .ok s.sum ∧
        fold (reverse s) 0 plus = fold s 0 plus ∧ fold s 0 plus = s.sum) ∧
    ((∀ k, k ≤ s.length → inRange (s.take k).prod) →
      (∀ k, k ≤ (reverse s).length → inRange ((reverse s).take k).prod) →
        checked_fold (reverse s) 1 checked_multiplies
          = checked_fold s 1 checked_multiplies ∧
        checked_fold s 1 checked_multiplies = .ok s.prod ∧
        fold (reverse s) 1 multiplies = fold s 1 multiplies ∧
        fold s 1 multiplies = s.prod) := by
  constructor
  · intro hs hr
    have e1 := checked_accumulate_plus s 0 (by simpa using hs)
    have e2 := checked_accumulate_plus (reverse s) 0 (by simpa using hr)
    rw [reverse_eq, List.sum_reverse] at e2
    rw [Int.zero_add] at e1 e2
    have hsum : fold s 0 plus = s.sum := by
      unfold fold
      rw [fold_plus_wrap s 0 (by decide), Int.zero_add]
      apply wrapInt_of_inRange
      simpa using hs s.length (le_refl _)
    refine ⟨?_, e1, (fold_reverse_wrap s).1, hsum⟩
    unfold checked_fold
    rw [reverse_eq, e1, e2]
  · intro hs hr
    have e1 := checked_accumulate_multiplies s 1 (by simpa using hs)
    have e2 := checked_accumulate_multiplies (reverse s) 1 (by simpa using hr)
    rw [reverse_eq, List.prod_reverse] at e2
    rw [Int.one_mul] at e1 e2
    have hprod : fold s 1 multiplies = s.prod := by
      unfold fold
      rw [fold_multiplies_wrap s 1 (by decide), Int.one_mul]
      apply wrapInt_of_inRange
      simpa using hs s.length (le_refl _)
    refine ⟨?_, e1, (fold_reverse_wrap s).2, hprod⟩
    unfold checked_fold
    rw [reverse_eq, e1, e2]

theorem fold_reverse_no_overflow_witness :
    (∀ k, k ≤ ([3, -5, 2] : List Int).length →
      inRange (([3, -5, 2] : List Int).take k).sum) ∧
    (∀ k, k ≤ (reverse ([3, -5, 2] : List Int)).length →
      inRange ((reverse ([3, -5, 2] : List Int)).take k).sum) ∧
    (∀ k, k ≤ ([3, -5, 2] : List Int).length →
      inRange (([3, -5, 2] : List Int).take k).prod) ∧
    (∀ k, k ≤ (reverse ([3, -5, 2] : List Int)).length →
      inRange ((reverse ([3, -5, 2] : List Int)).take k).prod) ∧
    (checked_fold (reverse ([3, -5, 2] : List Int)) 0 checked_plus
        = checked_fold ([3, -5, 2] : List Int) 0 checked_plus ∧
      checked_fold ([3, -5, 2] : List Int) 0 checked_plus
        = .ok ([3, -5, 2] : List Int).sum ∧
      fold (reverse ([3, -5, 2] : List Int)) 0 plus = fold ([3, -5, 2] : List Int) 0 plus ∧
      fold ([3, -5, 2] : List Int) 0 plus = ([3, -5, 2] : List Int).sum) ∧
    (checked_fold (reverse ([3, -5, 2] : List Int)) 1 checked_multiplies
        = checked_fold ([3, -5, 2] : List Int) 1 checked_multiplies ∧
      checked_fold ([3, -5, 2] : List Int) 1 checked_multiplies
        = .ok ([3, -5, 2] : List Int).prod ∧
      fold (reverse ([3, -5, 2] : List Int)) 1 multiplies
        = fold ([3, -5, 2] : List Int) 1 multiplies ∧
      fold ([3, -5, 2] : List Int) 1 multiplies = ([3, -5, 2] : List Int).prod) :=
  have hs : ∀ k, k ≤ ([3, -5, 2] : List Int).length →
      inRange (([3, -5, 2] : List Int).take k).sum := by
    intro k hk
    have hk3 : k ≤ 3 := hk
    interval_cases k <;> decide
  have hr : ∀ k, k ≤ (reverse ([3, -5, 2] : List Int)).length →
      inRange ((reverse ([3, -5, 2] : List Int)).take k).sum := by
    intro k hk
    have hk3 : k ≤ 3 := hk
    interval_cases k <;> decide
  have ps : ∀ k, k ≤ ([3, -5, 2] : List Int).length →
      inRange (([3, -5, 2] : List Int).take k).prod := by
    intro k hk
    have hk3 : k ≤ 3 := hk
    interval_cases k <;> decide
  have pr : ∀ k, k ≤ (reverse ([3, -5, 2] : List Int)).length →
      inRange ((reverse ([3, -5, 2] : List Int)).take k).prod := by
    intro k hk
    have hk3 : k ≤ 3 := hk
    interval_cases k <;> decide
  ⟨hs, hr, ps, pr, (fold_reverse_no_overflow [3, -5, 2]).1 hs hr,
    (fold_reverse_no_overflow [3, -5, 2]).2 ps pr⟩

/-- C19: filtering twice with the same predicate gives the same sequence as filtering
once; both applications return. -/
theorem filter_idempotent (s : List α) (p : α → Bool) :
    ∃ t, filter s p = .ok t ∧ filter t p = .ok t := by
  refine ⟨_, filter_eq s p, ?_⟩
  rw [filter_eq, List.filter_filter]
  simp

end ki
